import Mathlib

/-!
Verification development for the Local-Web-IDE virtual filesystem and
preview compiler (`src/services/db.ts`, App component).

The node store is a JS object `project.nodes` mapping ids to file/folder
records.  We embed it as an association list `List (String × Node)` whose
order models JS object insertion order (`Object.values` iterates in that
order for string keys).  Timestamps (`new Date().toISOString()`) and fresh
ids (`id('file')`, `crypto.randomUUID()`) are passed in as parameters, and
`URL.createObjectURL` is modelled as a fresh-name supply threaded through
the preview compiler as a counter.
-/

namespace LocalWebIDE

/-- The payload distinguishing the two node variants of `types.ts`:
`FileNode` carries `content`, `FolderNode` carries `childrenIds`. -/
inductive NodeData where
  | file (content : String)
  | folder (childrenIds : List String)
  deriving DecidableEq, Repr

/-- A node of the virtual filesystem (`BaseNode` plus its variant payload). -/
structure Node where
  id : String
  name : String
  parentId : Option String
  data : NodeData
  createdAt : String
  updatedAt : String
  deriving DecidableEq, Repr

/-- `node.type === 'folder'`. -/
def Node.isFolder (n : Node) : Bool :=
  match n.data with
  | .folder _ => true
  | .file _ => false

/-- `node.type === 'file'`. -/
def Node.isFile (n : Node) : Bool :=
  match n.data with
  | .file _ => true
  | .folder _ => false

/-- `node.childrenIds || []` — folders expose their ordered children,
files have none. -/
def Node.childrenIds (n : Node) : List String :=
  match n.data with
  | .folder cs => cs
  | .file _ => []

/-- `node.content || ''` — file content, empty for folders. -/
def Node.content (n : Node) : String :=
  match n.data with
  | .file c => c
  | .folder _ => ""

/-- The id-keyed node mapping `project.nodes`, in insertion order. -/
abbrev NodeMap := List (String × Node)

/-- A project record (`Project` of `types.ts`). -/
structure Project where
  id : String
  name : String
  rootId : String
  nodes : NodeMap
  createdAt : String
  updatedAt : String
  deriving DecidableEq, Repr

/-! ### JS object operations on the node mapping -/

/-- `nodes[k]` — first binding of key `k` (keys are unique in a JS object,
so "first" is "the" binding). -/
def nmLookup : NodeMap → String → Option Node
  | [], _ => none
  | (a, b) :: t, k => if a = k then some b else nmLookup t k

/-- `{...nodes, [k]: v}` — replace the binding of `k` in place, or append
a new binding (JS objects keep insertion order). -/
def nmSet : NodeMap → String → Node → NodeMap
  | [], k, v => [(k, v)]
  | (a, b) :: t, k, v => if a = k then (k, v) :: t else (a, b) :: nmSet t k v

/-- `delete nodes[k]`. -/
def nmErase : NodeMap → String → NodeMap
  | [], _ => []
  | (a, b) :: t, k => if a = k then nmErase t k else (a, b) :: nmErase t k

/-- `Object.values(nodes)`. -/
def nmValues (m : NodeMap) : List Node := m.map (·.2)

theorem nmLookup_set_self (m : NodeMap) (k : String) (v : Node) :
    nmLookup (nmSet m k v) k = some v := by
  induction m with
  | nil => simp [nmSet, nmLookup]
  | cons hd t ih =>
    obtain ⟨a, b⟩ := hd
    by_cases h : a = k <;> simp [nmSet, nmLookup, h, ih]

theorem nmLookup_set_other (m : NodeMap) (k k' : String) (v : Node) (h : k' ≠ k) :
    nmLookup (nmSet m k v) k' = nmLookup m k' := by
  induction m with
  | nil => simp [nmSet, nmLookup, Ne.symm h]
  | cons hd t ih =>
    obtain ⟨a, b⟩ := hd
    by_cases hak : a = k
    · subst hak
      simp [nmSet, nmLookup, Ne.symm h]
    · simp only [nmSet, if_neg hak, nmLookup]
      by_cases hak' : a = k' <;> simp [hak', ih]

theorem nmLookup_erase_self (m : NodeMap) (k : String) :
    nmLookup (nmErase m k) k = none := by
  induction m with
  | nil => simp [nmErase, nmLookup]
  | cons hd t ih =>
    obtain ⟨a, b⟩ := hd
    by_cases h : a = k <;> simp [nmErase, nmLookup, h, ih]

theorem nmLookup_erase_other (m : NodeMap) (k k' : String) (h : k' ≠ k) :
    nmLookup (nmErase m k) k' = nmLookup m k' := by
  induction m with
  | nil => simp [nmErase]
  | cons hd t ih =>
    obtain ⟨a, b⟩ := hd
    by_cases hak : a = k
    · subst hak
      simp [nmErase, nmLookup, Ne.symm h, ih]
    · simp only [nmErase, if_neg hak, nmLookup]
      by_cases hak' : a = k' <;> simp [hak', ih]

theorem nmLookup_mem {m : NodeMap} {k : String} {v : Node}
    (h : nmLookup m k = some v) : (k, v) ∈ m := by
  induction m with
  | nil => simp [nmLookup] at h
  | cons hd t ih =>
    obtain ⟨a, b⟩ := hd
    by_cases hak : a = k
    · subst hak
      simp [nmLookup] at h
      simp [h]
    · simp only [nmLookup, if_neg hak] at h
      exact List.mem_cons_of_mem _ (ih h)

theorem nmErase_of_lookup_none {m : NodeMap} {k : String}
    (h : nmLookup m k = none) : nmErase m k = m := by
  induction m with
  | nil => rfl
  | cons hd t ih =>
    obtain ⟨a, b⟩ := hd
    by_cases hak : a = k
    · simp [nmLookup, hak] at h
    · simp only [nmLookup, if_neg hak] at h
      simp [nmErase, hak, ih h]

/-! ### String helpers (JS `String.prototype.replace` with a string pattern) -/

/-- `pat` is a leading segment of `s`. -/
def lStarts : List Char → List Char → Bool
  | [], _ => true
  | _ :: _, [] => false
  | p :: ps, c :: cs => p = c && lStarts ps cs

/-- Split at the first occurrence of `pat`, returning the part before it and
the part after it. -/
def firstSplit (pat : List Char) : List Char → Option (List Char × List Char)
  | [] => if lStarts pat [] then some ([], []) else none
  | c :: rest =>
    if lStarts pat (c :: rest) then some ([], (c :: rest).drop pat.length)
    else (firstSplit pat rest).map (fun pr => (c :: pr.1, pr.2))

/-- Replace the first occurrence of `pat` by `rep` (JS
`s.replace(pat, rep)` with a plain-string pattern replaces only the first
occurrence). -/
def replaceFirstL (pat rep cs : List Char) : List Char :=
  match firstSplit pat cs with
  | some (a, b) => a ++ rep ++ b
  | none => cs

/-- `s.replace(pat, rep)` on strings. -/
def sReplaceFirst (s pat rep : String) : String :=
  String.mk (replaceFirstL pat.data rep.data s.data)

/-- `s.startsWith(pat)`. -/
def sStarts (s pat : String) : Bool := lStarts pat.data s.data

/-- `s.endsWith(pat)`. -/
def sEnds (s pat : String) : Bool := lStarts pat.data.reverse s.data.reverse

/-! ### Path Resolver (`findNodePath`, `getNodeRelativePath`) -/

/-- The `while (currentNode)` loop of `findNodePath`: prepend `/name` for
the current node, stop at a `null` parent or a dangling parent link, else
climb.  `fuel` is an embedding artifact: the JS loop runs unguarded, and
on acyclic parent chains (every project the app builds) never needs more
than `nodes.length` steps; the `0` branch behaves like a dangling parent
and is unreachable under that bound. -/
def pathGo (nodes : NodeMap) : Nat → Node → List Char → List Char
  | 0, node, path => '/' :: node.name.data ++ path
  | fuel + 1, node, path =>
    let path := '/' :: node.name.data ++ path
    match node.parentId with
    | none => path
    | some pid =>
      match nmLookup nodes pid with
      | none => path
      | some pnode => pathGo nodes fuel pnode path

/-- `findNodePath(project, nodeId)`: walk parent links accumulating
`/name` segments; `'/'` for an unknown id; finally
`path.replace('//','/') || '/'`. -/
def findNodePath (p : Project) (nodeId : String) : String :=
  match nmLookup p.nodes nodeId with
  | none => "/"
  | some node =>
    let path : String := String.mk (pathGo p.nodes (p.nodes.length + 1) node [])
    let replaced := sReplaceFirst path "//" "/"
    if replaced = "" then "/" else replaced

/-- The `while` loop of `getNodeRelativePath`: climb while the current
node exists and its `parentId` is truthy (non-null, non-empty) and is not
the root id, collecting names bottom-up.  Same fuel artifact as
`pathGo`. -/
def relLoop (p : Project) : Nat → Option Node → List String → Option Node × List String
  | 0, cur, parts => (cur, parts)
  | fuel + 1, cur, parts =>
    match cur with
    | none => (none, parts)
    | some n =>
      match n.parentId with
      | none => (some n, parts)
      | some pid =>
        if pid = "" ∨ pid = p.rootId then (some n, parts)
        else relLoop p fuel (nmLookup p.nodes pid) (n.name :: parts)

/-- `getNodeRelativePath(project, nodeId)`: the loop above, then
`if (currentNode && currentNode.id !== project.rootId) parts.unshift(name)`,
then `parts.join('/')`. -/
def getNodeRelativePath (p : Project) (nodeId : String) : String :=
  let st := relLoop p (p.nodes.length + 1) (nmLookup p.nodes nodeId) []
  let parts :=
    match st.1 with
    | some n => if n.id = p.rootId then st.2 else n.name :: st.2
    | none => st.2
  String.intercalate "/" parts

/-! ### Node Store mutations (`handleNewFile`, `handleDeleteNode`) -/

/-- The failure modes of `handleNewFile`/`handleNewFolder`, reported by
the source through `alert(...)` while returning the project unchanged. -/
inductive NodeStoreError where
  | invalidParent
  | nameCollision
  deriving DecidableEq, Repr

/-- The `setProject` callback of `handleNewFile`: validate the parent,
check sibling names, then insert a fresh empty file.  `fileId` stands for
the generated `id('file')` and `t` for `now()`; the second component
records which `alert` branch fired (`none` on success). -/
def handleNewFile (p : Project) (parentId name fileId t : String) :
    Project × Option NodeStoreError :=
  match nmLookup p.nodes parentId with
  | none => (p, some .invalidParent)
  | some parent =>
    if parent.isFolder = false then (p, some .invalidParent)
    else if parent.childrenIds.any (fun cid =>
        match nmLookup p.nodes cid with
        | some v => v.name == name
        | none => false) then (p, some .nameCollision)
    else
      let file : Node :=
        { id := fileId, name := name, parentId := some parentId,
          data := .file "", createdAt := t, updatedAt := t }
      let newParent : Node :=
        { parent with data := .folder (parent.childrenIds ++ [fileId]), updatedAt := t }
      let newNodes := nmSet (nmSet p.nodes fileId file) parentId newParent
      ({ p with nodes := newNodes, updatedAt := t }, none)

/-- `node?.type === 'folder' ? node.childrenIds || [] : []` — the ids a
traversal step pushes for `k`. -/
def delChildren (m : NodeMap) (k : String) : List String :=
  match nmLookup m k with
  | some n => if n.isFolder then n.childrenIds else []
  | none => []

/-- Termination measure for the deleting traversal: one unit per binding
plus one per child id, plus later the queue length.  Each loop iteration
strictly decreases it, so the loop below always finishes within
`weightSum m + queue.length` steps. -/
def weightSum (m : NodeMap) : Nat :=
  (m.map (fun kv => 1 + kv.2.childrenIds.length)).sum

/-- The deleting traversal inside `setProject` of `handleDeleteNode`:
pop an id, push its children (looked up in the shrinking map), delete its
binding.  Because children are read from the same map that shrinks, every
id contributes its children at most once and the loop always terminates;
`fuel` merely makes that syntactically evident (the flag records that the
queue was emptied, which the completion lemma below discharges). -/
def delLoop : Nat → List String → NodeMap → NodeMap × Bool
  | 0, q, m => (m, q.isEmpty)
  | _ + 1, [], m => (m, true)
  | fuel + 1, cur :: rest, m => delLoop fuel (rest ++ delChildren m cur) (nmErase m cur)

/-- The tail of the `setProject` callback of `handleDeleteNode`: when the
captured parent id is truthy (non-null and non-empty) and still names a
folder in the traversed map, filter `nodeId` out of that folder's
`childrenIds` and refresh its `updatedAt`; otherwise leave the map
alone. -/
def delFixup (parentIdOpt : Option String) (m : NodeMap) (nodeId t : String) : NodeMap :=
  match parentIdOpt with
  | some pid =>
    if pid = "" then m
    else
      match nmLookup m pid with
      | some pv =>
        if pv.isFolder then
          nmSet m pid (Node.mk pv.id pv.name pv.parentId
            (.folder (pv.childrenIds.filter (fun cid => cid != nodeId))) pv.createdAt t)
        else m
      | none => m
  | none => m

/-- The `setProject` callback of `handleDeleteNode`: no-op for the root
id, otherwise capture the parent id (`p.nodes[nodeId]?.parentId`), run
the deleting traversal from `nodeId`, apply the parent fixup, and refresh
the project's `updatedAt` unconditionally. -/
def handleDeleteNode (p : Project) (nodeId t : String) : Project :=
  if nodeId = p.rootId then p
  else
    let parentIdOpt := (nmLookup p.nodes nodeId).bind (fun n => n.parentId)
    let m := (delLoop (weightSum p.nodes + 2) [nodeId] p.nodes).1
    { p with nodes := delFixup parentIdOpt m nodeId t, updatedAt := t }

/-- The subtree-collection loop `handleDeleteNode` runs first (to decide
whether the active file is being deleted): a BFS over the UNCHANGING
`project.nodes` with no visited-set guard — `deletedIds` is only written,
never consulted — so on a cyclic `childrenIds` graph the JS loop never
exits.  We give it fuel and return `none` when fuel runs out with work
remaining; termination is exactly "some fuel returns `some`". -/
def collectLoop (nodes : NodeMap) : Nat → List String → List String → Option (List String)
  | 0, q, acc => if q.isEmpty then some acc else none
  | _ + 1, [], acc => some acc
  | fuel + 1, cur :: rest, acc =>
    let acc := if cur ∈ acc then acc else acc ++ [cur]
    collectLoop nodes fuel (rest ++ delChildren nodes cur) acc

/-! ### Preview Compiler (`srcDoc`) -/

/-- The diagnostic document returned when no entry file exists. -/
def diagnosticDoc : String := "<h1>index.html not found in project root</h1>"

/-- The instrumentation bridge injected before `</head>`: overrides the
four console channels to forward serialized arguments to the parent as
`preview-console` messages and installs a global error listener.  Braces
and single quotes of the JS text are written as `\x7b`/`\x7d`/`\x27`. -/
def injectedScript : String :=
  "\n        <script>\n            // Console override\n            const _o = \x7b\x7d; \n            [\x27log\x27, \x27warn\x27, \x27error\x27, \x27info\x27].forEach(k => \x7b\n                _o[k] = console[k];\n                console[k] = (...args) => \x7b\n                    _o[k](...args);\n                    try \x7b\n                        window.parent.postMessage(\x7b source: \x27preview-console\x27, type: k, data: JSON.parse(JSON.stringify(args)) \x7d, \x27*\x27);\n                    \x7d catch(e) \x7b\n                         window.parent.postMessage(\x7b source: \x27preview-console\x27, type: k, data: [\x27[non-serializable object]\x27] \x7d, \x27*\x27);\n                    \x7d\n                \x7d\n            \x7d);\n            // Global error handler\n            window.addEventListener(\x27error\x27, e => console.error(e.message, \x27at\x27, e.filename + \x27:\x27 + e.lineno));\n        </script>\n        "

/-- The double-quote and single-quote characters of the regex classes. -/
def quoteD : Char := '"'

/-- See `quoteD`. -/
def quoteS : Char := Char.ofNat 39

/-- Membership in the regex class `["']`. -/
def isQuote (c : Char) : Bool := c = quoteD || c = quoteS

/-- The alternation `(href|src)=`. -/
def parseAttrName (cs : List Char) : Option (String × List Char) :=
  if lStarts "href=".data cs then some ("href", cs.drop 5)
  else if lStarts "src=".data cs then some ("src", cs.drop 4)
  else none

/-- Attempt the regex `(href|src)=["'](?!https?:\/\/)([^"']+)["']` at the
head of `cs`; on success return the attribute name, the captured value
and the input remaining after the match.  The negative lookahead rejects
exactly the two prefixes `http://` and `https://`, nothing else. -/
def tryMatch (cs : List Char) : Option (String × String × List Char) :=
  match parseAttrName cs with
  | none => none
  | some (attr, rest) =>
    match rest with
    | [] => none
    | q :: rest2 =>
      if isQuote q then
        if lStarts "http://".data rest2 || lStarts "https://".data rest2 then none
        else
          let val := rest2.takeWhile (fun c => !(isQuote c))
          let rest3 := rest2.dropWhile (fun c => !(isQuote c))
          if val.isEmpty then none
          else
            match rest3 with
            | q2 :: rest4 => if isQuote q2 then some (attr, String.mk val, rest4) else none
            | [] => none
      else none

/-- `Object.values(project.nodes).find(n => n.type === 'file' &&
getNodeRelativePath(project, n.id) === path)`. -/
def assetFind (p : Project) (path : String) : Option Node :=
  (nmValues p.nodes).find? (fun n => n.isFile && getNodeRelativePath p n.id == path)

/-- MIME type inferred from the file name's extension. -/
def mimeOf (name : String) : String :=
  if sEnds name ".js" then "application/javascript"
  else if sEnds name ".css" then "text/css"
  else "text/plain"

/-- `URL.createObjectURL(new Blob([content], { type: mime }))`: the
browser mints an opaque, globally fresh `blob:` URL whose text depends on
neither the blob content nor its MIME type; the freshness is modelled by
the counter. -/
def createObjectURL (_content _mime : String) (cnt : Nat) : String × Nat :=
  ("blob:preview/" ++ toString cnt, cnt + 1)

/-- The replacement callback of the asset rewrite: strip a leading `./`,
search for a file node whose root-relative path equals the candidate; on
a hit mint a blob URL for its content, otherwise re-emit the original
value.  Either way the attribute comes back double-quoted. -/
def rewriteValue (p : Project) (attr rawPath : String) (cnt : Nat) : String × Nat :=
  let path := if sStarts rawPath "./" then rawPath.drop 2 else rawPath
  match assetFind p path with
  | some fileNode =>
    let r := createObjectURL fileNode.content (mimeOf fileNode.name) cnt
    (attr ++ "=\"" ++ r.1 ++ "\"", r.2)
  | none => (attr ++ "=\"" ++ rawPath ++ "\"", cnt)

/-- `html.replace(regex-with-g, callback)`: scan left to right, at each
position try the pattern; after a match continue right after it.  Fuel is
the input length — every step consumes at least one character, so the
`0` branch is unreachable from `rewriteAssets`. -/
def rewriteGo (p : Project) : Nat → List Char → Nat → List Char × Nat
  | 0, cs, cnt => (cs, cnt)
  | _ + 1, [], cnt => ([], cnt)
  | fuel + 1, c :: rest, cnt =>
    match tryMatch (c :: rest) with
    | some (attr, val, after) =>
      let rv := rewriteValue p attr val cnt
      let tail := rewriteGo p fuel after rv.2
      (rv.1.data ++ tail.1, tail.2)
    | none =>
      let tail := rewriteGo p fuel rest cnt
      (c :: tail.1, tail.2)

/-- The whole-string asset rewrite. -/
def rewriteAssets (p : Project) (s : String) (cnt : Nat) : String × Nat :=
  let r := rewriteGo p s.data.length s.data cnt
  (String.mk r.1, r.2)

/-- Locate the entry node: `Object.values(project.nodes).find(n =>
n.type === 'file' && n.name === 'index.html' && n.parentId ===
project.rootId)`. -/
def findEntry (p : Project) : Option Node :=
  (nmValues p.nodes).find? (fun n =>
    n.isFile && n.name == "index.html" && n.parentId == some p.rootId)

/-- The preview compiler (the `srcDoc` useMemo body): if no entry exists
return the diagnostic document; otherwise inject the bridge before the
first `</head>` (no-op when absent) and rewrite local `href`/`src`
references, threading the blob-URL allocator. -/
def srcDoc (p : Project) (cnt : Nat) : String × Nat :=
  match findEntry p with
  | none => (diagnosticDoc, cnt)
  | some htmlNode =>
    let htmlContent := htmlNode.content
    let html := sReplaceFirst htmlContent "</head>" (injectedScript ++ "</head>")
    rewriteAssets p html cnt

/-! ### Sandbox Bridge host side (`handleMessage`) -/

/-- The shape of `event.data` as the host reads it: an optional `source`
tag, a channel name `type`, and the serialized payload. -/
structure BridgeMessage where
  source : Option String
  mtype : String
  mdata : List String
  deriving DecidableEq, Repr

/-- A console log entry as appended by the host. -/
structure LogRecord where
  lid : String
  ltype : String
  timestamp : String
  ldata : List String
  deriving DecidableEq, Repr

/-- The `message` listener: if `event.data?.source === 'preview-console'`
append a log entry built from the message (the generated uuid `newId` and
timestamp `ts` are parameters); otherwise do nothing.  The source checks
only the `source` tag — there is no whitelist on the channel name. -/
def handleMessage (logs : List LogRecord) (msg : BridgeMessage) (newId ts : String) :
    List LogRecord :=
  if msg.source = some "preview-console" then
    logs ++ [{ lid := newId, ltype := msg.mtype, timestamp := ts, ldata := msg.mdata }]
  else logs

/-! ### Frame for compilation -/

/-- The pieces of browser/React state a preview recomputation can see or
touch: the current project (read), the blob-URL allocator (the one piece
of global state `URL.createObjectURL` advances) and the console log. -/
structure AppState where
  project : Project
  urlCounter : Nat
  logs : List LogRecord
  deriving DecidableEq, Repr

/-- Recomputing the preview: `srcDoc` reads `s.project`, mints blob URLs,
and returns the document string with the advanced state. -/
def computePreview (s : AppState) : String × AppState :=
  let r := srcDoc s.project s.urlCounter
  (r.1, { s with urlCounter := r.2 })

/-! ### Spec-side definitions (for refinement comparison only) -/

/-- Modelled from the spec: "whose value is not an absolute URL (no
scheme, no `//` prefix)" — a value counts as absolute when it starts with
`//` or carries a URL scheme, i.e. a nonempty run of letters followed by
`:`. -/
def specIsAbsoluteURL (v : String) : Bool :=
  sStarts v "//" ||
    (!(v.data.takeWhile (fun c => c.isAlpha)).isEmpty &&
      lStarts [':'] (v.data.dropWhile (fun c => c.isAlpha)))

/-! ### Reachability through `childrenIds` -/

/-- One hop: `b` is listed among the children of the node bound to `a`. -/
def childRel (m : NodeMap) (a b : String) : Prop :=
  ∃ v, nmLookup m a = some v ∧ b ∈ v.childrenIds

/-- `b` lies in the subtree spanned from `a` by `childrenIds` links
(reflexive-transitive closure of `childRel`). -/
def Reach (m : NodeMap) (a b : String) : Prop :=
  Relation.ReflTransGen (childRel m) a b

/-! ## Claim C5 — host-side message filtering -/

/-- A log sequence used to exhibit the missing channel whitelist. -/
def c5Message : BridgeMessage :=
  { source := some "preview-console", mtype := "bogus", mdata := ["x"] }

/-- C5 is false as stated: `"bogus"` is not one of the four bridge
channels, yet a message carrying it (with the `preview-console` source
tag) is appended, so the host's log sequence does change. -/
theorem c5_counterexample :
    "bogus" ∉ (["log", "warn", "error", "info"] : List String) ∧
    handleMessage [] c5Message "u1" "ts1" ≠ [] := by
  constructor
  · decide
  · decide

/-- C5 (amended): the host's acceptance test is the `source` tag alone —
a message is ignored exactly when its `source` is not
`'preview-console'`, regardless of channel name — and an accepted message
is only ever appended to the log sequence, never modifying or removing
existing entries. -/
theorem c5_amended (logs : List LogRecord) (msg : BridgeMessage) (newId ts : String) :
    (msg.source ≠ some "preview-console" → handleMessage logs msg newId ts = logs) ∧
    (handleMessage logs msg newId ts = logs ∨
      handleMessage logs msg newId ts =
        logs ++ [{ lid := newId, ltype := msg.mtype, timestamp := ts, ldata := msg.mdata }]) := by
  constructor
  · intro h
    simp [handleMessage, h]
  · by_cases h : msg.source = some "preview-console" <;> simp [handleMessage, h]

/-- Witness for `c5_amended` at a concrete ignored message. -/
theorem c5_witness :
    handleMessage [] { source := some "elsewhere", mtype := "log", mdata := [] } "u" "t" = [] :=
  (c5_amended [] { source := some "elsewhere", mtype := "log", mdata := [] } "u" "t").1
    (by decide)

/-! ## Claim C7 — missing entry file -/

/-- C7: for every project in which no file node named `index.html` has
the root as parent, the compiler returns the fixed, non-empty diagnostic
document.  `srcDoc` is a total function of the project and the allocator,
so in particular it never throws. -/
theorem c7_missing_entry (p : Project) (cnt : Nat)
    (h : ∀ n ∈ nmValues p.nodes,
      ¬(n.isFile = true ∧ n.name = "index.html" ∧ n.parentId = some p.rootId)) :
    (srcDoc p cnt).1 = diagnosticDoc ∧ (srcDoc p cnt).1 ≠ "" := by
  have hfind : findEntry p = none := by
    apply List.find?_eq_none.mpr
    intro n hn hpred
    apply h n hn
    simpa [Bool.and_eq_true, beq_iff_eq, and_assoc] using hpred
  refine ⟨?_, ?_⟩ <;> simp [srcDoc, hfind, diagnosticDoc]

/-- A project whose only node is the root folder. -/
def c7Project : Project :=
  { id := "p7", name := "w", rootId := "root",
    nodes := [("root",
      { id := "root", name := "w", parentId := none, data := .folder [],
        createdAt := "t0", updatedAt := "t0" })],
    createdAt := "t0", updatedAt := "t0" }

/-- Witness for `c7_missing_entry`. -/
theorem c7_witness : (srcDoc c7Project 0).1 = diagnosticDoc ∧ (srcDoc c7Project 0).1 ≠ "" :=
  c7_missing_entry c7Project 0 (by decide)

/-! ## Claim C9 — compilation is a pure read -/

/-- C9: recomputing the preview leaves the project untouched — the whole
project value, every node binding, and in particular every timestamp are
those of the input state; only the blob-URL allocator advances. -/
theorem c9_compile_frame (s : AppState) :
    (computePreview s).2.project = s.project ∧
    (computePreview s).2.logs = s.logs ∧
    (∀ k, nmLookup (computePreview s).2.project.nodes k = nmLookup s.project.nodes k) ∧
    (computePreview s).2.project.updatedAt = s.project.updatedAt ∧
    (computePreview s).1 = (srcDoc s.project s.urlCounter).1 :=
  ⟨rfl, rfl, fun _ => rfl, rfl, rfl⟩

/-! ## Claim C1 — compile idempotence -/

theorem rewriteValue_counter_le (p : Project) (a v : String) (cnt : Nat) :
    cnt ≤ (rewriteValue p a v cnt).2 := by
  cases h : assetFind p (if sStarts v "./" then v.drop 2 else v) <;>
    simp [rewriteValue, h, createObjectURL]

theorem rewriteValue_nomatch (p : Project) (a v : String) (cnt : Nat)
    (h : assetFind p (if sStarts v "./" then v.drop 2 else v) = none) :
    rewriteValue p a v cnt = (a ++ "=\"" ++ v ++ "\"", cnt) := by
  simp [rewriteValue, h]

theorem rewriteGo_counter_le (p : Project) :
    ∀ fuel cs cnt, cnt ≤ (rewriteGo p fuel cs cnt).2 := by
  intro fuel
  induction fuel with
  | zero => intro cs cnt; simp [rewriteGo]
  | succ fuel ih =>
    intro cs cnt
    cases cs with
    | nil => simp [rewriteGo]
    | cons c rest =>
      cases h : tryMatch (c :: rest) with
      | none => simpa [rewriteGo, h] using ih rest cnt
      | some mt =>
        obtain ⟨attr, val, after⟩ := mt
        have h1 := rewriteValue_counter_le p attr val cnt
        have h2 := ih after (rewriteValue p attr val cnt).2
        simp only [rewriteGo, h]
        omega

theorem rewriteGo_counter_fixed (p : Project) :
    ∀ fuel cs cnt m, (rewriteGo p fuel cs cnt).2 = cnt →
      rewriteGo p fuel cs m = ((rewriteGo p fuel cs cnt).1, m) := by
  intro fuel
  induction fuel with
  | zero => intro cs cnt m _; simp [rewriteGo]
  | succ fuel ih =>
    intro cs cnt m h
    cases cs with
    | nil => simp [rewriteGo]
    | cons c rest =>
      cases htm : tryMatch (c :: rest) with
      | none =>
        simp only [rewriteGo, htm] at h ⊢
        have := ih rest cnt m h
        simp [this]
      | some mt =>
        obtain ⟨attr, val, after⟩ := mt
        cases haf : assetFind p (if sStarts val "./" then val.drop 2 else val) with
        | some f =>
          exfalso
          simp only [rewriteGo, htm] at h
          have h1 : (rewriteValue p attr val cnt).2 = cnt + 1 := by
            simp [rewriteValue, haf, createObjectURL]
          rw [h1] at h
          have h2 := rewriteGo_counter_le p fuel after (cnt + 1)
          omega
        | none =>
          simp only [rewriteGo, htm] at h ⊢
          rw [rewriteValue_nomatch p attr val cnt haf] at h ⊢
          rw [rewriteValue_nomatch p attr val m haf]
          have := ih after cnt m h
          simp [this]

theorem srcDoc_counter_fixed (p : Project) (n m : Nat) (h : (srcDoc p n).2 = n) :
    srcDoc p m = ((srcDoc p n).1, m) := by
  cases he : findEntry p with
  | none => simp [srcDoc, he]
  | some htmlNode =>
    simp only [srcDoc, he, rewriteAssets] at h ⊢
    rw [rewriteGo_counter_fixed p _ _ n m h]

/-- C1 (amended): compilation is deterministic in the project and the
blob-URL allocator, and whenever a compilation allocates no blob URL —
i.e. substitutes no asset reference — its output string does not depend
on the allocator at all, so compiling twice without mutation yields the
same output.  (When a substitution does occur, a second compilation
differs precisely in the freshly minted blob URLs; see the
counterexample.) -/
theorem c1_amended (p : Project) (n m : Nat) (h : (srcDoc p n).2 = n) :
    (srcDoc p m).1 = (srcDoc p n).1 := by
  rw [srcDoc_counter_fixed p n m h]

/-- A project whose entry references `app.js`, which exists at the root:
compilation substitutes the reference through a fresh blob URL. -/
def c1Project : Project :=
  { id := "p1", name := "proj", rootId := "root",
    nodes :=
      [("root", { id := "root", name := "proj", parentId := none,
                  data := .folder ["i", "a"], createdAt := "t0", updatedAt := "t0" }),
       ("i", { id := "i", name := "index.html", parentId := some "root",
               data := .file "<p><script src=\"app.js\"></script></p>",
               createdAt := "t0", updatedAt := "t0" }),
       ("a", { id := "a", name := "app.js", parentId := some "root",
               data := .file "console.log(1)", createdAt := "t0", updatedAt := "t0" })],
    createdAt := "t0", updatedAt := "t0" }

/-- A project whose entry references nothing, so compilation allocates no
blob URL. -/
def c1Quiet : Project :=
  { id := "p1q", name := "proj", rootId := "root",
    nodes :=
      [("root", { id := "root", name := "proj", parentId := none,
                  data := .folder ["i"], createdAt := "t0", updatedAt := "t0" }),
       ("i", { id := "i", name := "index.html", parentId := some "root",
               data := .file "<p>hello</p>", createdAt := "t0", updatedAt := "t0" })],
    createdAt := "t0", updatedAt := "t0" }

/-- C1 is false as stated: compiling the same unmutated project twice in
succession (the second run starting from the allocator state the first
one produced, as in a browser) yields different strings — each
substituted asset reference is materialized through a fresh blob URL. -/
theorem c1_counterexample :
    (srcDoc c1Project ((srcDoc c1Project 0).2)).1 ≠ (srcDoc c1Project 0).1 := by
  decide

/-- Witness for `c1_amended`: a substitution-free compilation keeps the
allocator, and a second compilation agrees. -/
theorem c1_witness : (srcDoc c1Quiet 0).2 = 0 ∧ (srcDoc c1Quiet 7).1 = (srcDoc c1Quiet 0).1 :=
  ⟨by decide, c1_amended c1Quiet 0 7 (by decide)⟩

/-! ## Claim C3 — createFile -/

theorem collision_any_iff (p : Project) (parent : Node) (name : String) :
    (parent.childrenIds.any (fun cid =>
        match nmLookup p.nodes cid with
        | some v => v.name == name
        | none => false) = true) ↔
      ∃ cid ∈ parent.childrenIds, ∃ v, nmLookup p.nodes cid = some v ∧ v.name = name := by
  rw [List.any_eq_true]
  constructor
  · rintro ⟨cid, hmem, hpred⟩
    cases hv : nmLookup p.nodes cid with
    | none => rw [hv] at hpred; simp at hpred
    | some v =>
      rw [hv] at hpred
      exact ⟨cid, hmem, v, hv, by simpa [beq_iff_eq] using hpred⟩
  · rintro ⟨cid, hmem, v, hv, hname⟩
    exact ⟨cid, hmem, by simp [hv, hname]⟩

/-- C3: creating a file under `parentId` fails with `NameCollision` and
leaves the store untouched when a direct child of that folder already
carries `name`; fails with `InvalidParent` and leaves the store untouched
when `parentId` does not name an existing folder; on success inserts a
file node with empty content, appends its id to the parent's
`childrenIds`, and refreshes both the parent's and the project's
timestamps. -/
theorem c3_create_file (p : Project) (parentId name fileId t : String) :
    (∀ parent, nmLookup p.nodes parentId = some parent → parent.isFolder = true →
      (∃ cid ∈ parent.childrenIds, ∃ v, nmLookup p.nodes cid = some v ∧ v.name = name) →
      handleNewFile p parentId name fileId t = (p, some .nameCollision)) ∧
    ((nmLookup p.nodes parentId = none ∨
        ∃ parent, nmLookup p.nodes parentId = some parent ∧ parent.isFolder = false) →
      handleNewFile p parentId name fileId t = (p, some .invalidParent)) ∧
    (∀ parent, nmLookup p.nodes parentId = some parent → parent.isFolder = true →
      (¬ ∃ cid ∈ parent.childrenIds, ∃ v, nmLookup p.nodes cid = some v ∧ v.name = name) →
      fileId ≠ parentId →
      (handleNewFile p parentId name fileId t).2 = none ∧
      nmLookup (handleNewFile p parentId name fileId t).1.nodes fileId =
        some (Node.mk fileId name (some parentId) (.file "") t t) ∧
      nmLookup (handleNewFile p parentId name fileId t).1.nodes parentId =
        some (Node.mk parent.id parent.name parent.parentId
          (.folder (parent.childrenIds ++ [fileId])) parent.createdAt t) ∧
      (handleNewFile p parentId name fileId t).1.updatedAt = t) := by
  refine ⟨?_, ?_, ?_⟩
  · intro parent hp hf hcol
    have hany := (collision_any_iff p parent name).mpr hcol
    simp [handleNewFile, hp, hf, hany]
  · rintro (hnone | ⟨parent, hp, hf⟩)
    · simp [handleNewFile, hnone]
    · simp [handleNewFile, hp, hf]
  · intro parent hp hf hncol hne
    have hany : (parent.childrenIds.any (fun cid =>
        match nmLookup p.nodes cid with
        | some v => v.name == name
        | none => false)) = false := by
      rw [Bool.eq_false_iff]
      intro hx
      exact hncol ((collision_any_iff p parent name).mp hx)
    have e : handleNewFile p parentId name fileId t =
        (Project.mk p.id p.name p.rootId
          (nmSet (nmSet p.nodes fileId (Node.mk fileId name (some parentId) (.file "") t t))
            parentId
            (Node.mk parent.id parent.name parent.parentId
              (.folder (parent.childrenIds ++ [fileId])) parent.createdAt t))
          p.createdAt t, none) := by
      simp [handleNewFile, hp, hf, hany]
    rw [e]
    refine ⟨rfl, ?_, ?_, rfl⟩
    · rw [nmLookup_set_other _ parentId fileId _ hne, nmLookup_set_self]
    · rw [nmLookup_set_self]

/-- A project with an empty root folder. -/
def c3Project : Project :=
  { id := "p3", name := "proj", rootId := "root",
    nodes := [("root",
      { id := "root", name := "proj", parentId := none, data := .folder [],
        createdAt := "t0", updatedAt := "t0" })],
    createdAt := "t0", updatedAt := "t0" }

/-- The root node of `c3Project`. -/
def c3Root : Node :=
  { id := "root", name := "proj", parentId := none, data := .folder [],
    createdAt := "t0", updatedAt := "t0" }

/-- Witness for `c3_create_file`: a successful creation under the empty
root. -/
theorem c3_witness :
    (handleNewFile c3Project "root" "a.txt" "nf" "t1").2 = none ∧
    nmLookup (handleNewFile c3Project "root" "a.txt" "nf" "t1").1.nodes "nf" =
      some (Node.mk "nf" "a.txt" (some "root") (.file "") "t1" "t1") ∧
    nmLookup (handleNewFile c3Project "root" "a.txt" "nf" "t1").1.nodes "root" =
      some (Node.mk c3Root.id c3Root.name c3Root.parentId
        (.folder (c3Root.childrenIds ++ ["nf"])) c3Root.createdAt "t1") ∧
    (handleNewFile c3Project "root" "a.txt" "nf" "t1").1.updatedAt = "t1" :=
  (c3_create_file c3Project "root" "a.txt" "nf" "t1").2.2 c3Root rfl rfl
    (by simp [c3Root, Node.childrenIds]) (by decide)

/-! ## Claim C8 — deleting an absent id -/

/-- A project consisting of the root folder and one file; `"ghost"` is
absent from its node mapping. -/
def c8Project : Project :=
  { id := "p8", name := "proj", rootId := "root",
    nodes :=
      [("root", { id := "root", name := "proj", parentId := none,
                  data := .folder ["a"], createdAt := "t0", updatedAt := "t0" }),
       ("a", { id := "a", name := "a.txt", parentId := some "root",
               data := .file "x", createdAt := "t0", updatedAt := "t0" })],
    createdAt := "t0", updatedAt := "t0" }

/-- C8 is false as stated: deleting an id absent from the mapping leaves
the node mapping and every node untouched, but still refreshes the
project's `updatedAt` (the source reports no `NotFound` at all), so the
resulting project is not equal to the input project. -/
theorem c8_counterexample :
    nmLookup c8Project.nodes "ghost" = none ∧
    handleDeleteNode c8Project "ghost" "t1" ≠ c8Project ∧
    (handleDeleteNode c8Project "ghost" "t1").updatedAt = "t1" := by
  decide

/-- C8 (amended): deleting an absent non-root id is a no-op on the node
mapping — the mapping, every node in it, and every node timestamp are
untouched — but the project's `updatedAt` is still refreshed to the
current time; no error is reported. -/
theorem c8_amended (p : Project) (nodeId t : String)
    (habs : nmLookup p.nodes nodeId = none) (hroot : nodeId ≠ p.rootId) :
    handleDeleteNode p nodeId t = { p with updatedAt := t } := by
  have hchild : delChildren p.nodes nodeId = [] := by simp [delChildren, habs]
  have hloop : delLoop (weightSum p.nodes + 2) [nodeId] p.nodes = (p.nodes, true) := by
    have e1 : delLoop (weightSum p.nodes + 2) [nodeId] p.nodes
        = delLoop (weightSum p.nodes + 1) ([] ++ delChildren p.nodes nodeId)
            (nmErase p.nodes nodeId) := rfl
    rw [e1, hchild, nmErase_of_lookup_none habs]
    rfl
  simp [handleDeleteNode, delFixup, hroot, habs, hloop]

/-- Witness for `c8_amended`. -/
theorem c8_witness :
    handleDeleteNode c8Project "ghost" "t1" = { c8Project with updatedAt := "t1" } :=
  c8_amended c8Project "ghost" "t1" (by decide) (by decide)

/-! ## Claim C4 — asset substitution candidates -/

theorem lStarts_self_append : ∀ (pat rest : List Char), lStarts pat (pat ++ rest) = true
  | [], _ => rfl
  | p :: ps, rest => by simp [lStarts, lStarts_self_append ps rest]

theorem parseAttrName_href (rest : List Char) :
    parseAttrName ("href=".data ++ rest) = some ("href", rest) := rfl

theorem parseAttrName_src (rest : List Char) :
    parseAttrName ("src=".data ++ rest) = some ("src", rest) := rfl

theorem lStarts_append_stop (pat : List Char) (hnq : ∀ c ∈ pat, c ≠ quoteD) :
    ∀ (v suffix : List Char), lStarts pat (v ++ quoteD :: suffix) = lStarts pat v := by
  induction pat with
  | nil => intro v suffix; rfl
  | cons p ps ih =>
    intro v suffix
    cases v with
    | nil =>
      have hp : p ≠ quoteD := hnq p (by simp)
      simp [lStarts, hp]
    | cons c cs =>
      simp only [List.cons_append, lStarts]
      congr 1
      exact ih (fun x hx => hnq x (List.mem_cons_of_mem _ hx)) cs suffix

theorem takeWhile_middle (pr : Char → Bool) :
    ∀ (xs : List Char) (y : Char) (ys : List Char),
      (∀ c ∈ xs, pr c = true) → pr y = false →
      (xs ++ y :: ys).takeWhile pr = xs ∧ (xs ++ y :: ys).dropWhile pr = y :: ys := by
  intro xs
  induction xs with
  | nil => intro y ys _ hy; simp [List.takeWhile, List.dropWhile, hy]
  | cons x xt ih =>
    intro y ys hall hy
    have hx : pr x = true := hall x (by simp)
    have iht := ih y ys (fun c hc => hall c (by simp [hc])) hy
    simp [List.takeWhile, List.dropWhile, hx, iht.1, iht.2]

/-- C4 (amended): at any position of the entry content, an attribute text
`attr="value"…` (value nonempty and quote-free, as the character class
`[^"']+` requires) is matched — the value is a substitution candidate —
exactly when the value does not start with `http://` or `https://`; the
negative lookahead rejects nothing else, in particular neither other
schemes nor a protocol-relative `//` prefix.  The candidate path is the
value with a leading `./` stripped, and when no file node's root-relative
path equals it, the attribute is re-emitted with the original value. -/
theorem c4_amended (attr v : String) (suffix : List Char)
    (hattr : attr = "href" ∨ attr = "src") (hv : v ≠ "")
    (hq : ∀ c ∈ v.data, isQuote c = false) :
    (¬(sStarts v "http://" = true ∨ sStarts v "https://" = true) →
      tryMatch ((attr ++ "=").data ++ quoteD :: (v.data ++ quoteD :: suffix)) =
        some (attr, v, suffix) ∧
      (∀ p cnt, assetFind p (if sStarts v "./" then v.drop 2 else v) = none →
        rewriteValue p attr v cnt = (attr ++ "=\"" ++ v ++ "\"", cnt))) ∧
    ((sStarts v "http://" = true ∨ sStarts v "https://" = true) →
      tryMatch ((attr ++ "=").data ++ quoteD :: (v.data ++ quoteD :: suffix)) = none) := by
  have hparse : parseAttrName ((attr ++ "=").data ++ quoteD :: (v.data ++ quoteD :: suffix)) =
      some (attr, quoteD :: (v.data ++ quoteD :: suffix)) := by
    rcases hattr with h | h <;> subst h
    · exact parseAttrName_href _
    · exact parseAttrName_src _
  have hvd : v.data ≠ [] := by
    intro hc
    apply hv
    cases v
    simp at hc
    simp [hc]
  have hla1 : lStarts "http://".data (v.data ++ quoteD :: suffix) = sStarts v "http://" := by
    rw [lStarts_append_stop "http://".data (by decide) v.data suffix]
    rfl
  have hla2 : lStarts "https://".data (v.data ++ quoteD :: suffix) = sStarts v "https://" := by
    rw [lStarts_append_stop "https://".data (by decide) v.data suffix]
    rfl
  have hqq : isQuote quoteD = true := by decide
  constructor
  · intro hno
    have hb1 : sStarts v "http://" = false := by
      cases hx : sStarts v "http://"
      · rfl
      · exact absurd (Or.inl hx) hno
    have hb2 : sStarts v "https://" = false := by
      cases hx : sStarts v "https://"
      · rfl
      · exact absurd (Or.inr hx) hno
    have htake := takeWhile_middle (fun c => !(isQuote c)) v.data quoteD suffix
      (fun c hc => by simp [hq c hc]) (by simp [hqq])
    have hne : v.data.isEmpty = false := by
      cases hdd : v.data
      · exact absurd hdd hvd
      · rfl
    constructor
    · simp only [tryMatch, hparse, hqq, hla1, hla2, hb1, hb2, htake.1, htake.2, hne]
      simp
    · intro p cnt hfind
      exact rewriteValue_nomatch p attr v cnt hfind
  · intro hyes
    simp only [tryMatch, hparse, hqq, hla1, hla2]
    rcases hyes with hx | hx <;> simp [hx]

/-- A project with only a root folder, so no asset path resolves. -/
def c4Project : Project :=
  { id := "p4", name := "proj", rootId := "root",
    nodes := [("root",
      { id := "root", name := "proj", parentId := none, data := .folder [],
        createdAt := "t0", updatedAt := "t0" })],
    createdAt := "t0", updatedAt := "t0" }

/-- C4 is false as stated: `//cdn/app.js` is protocol-relative, i.e. an
absolute URL by the spec's criterion ("no scheme, no `//` prefix"), yet
the scanner matches it — the lookahead rejects only `http://` and
`https://` — so "candidate exactly when not absolute" fails here. -/
theorem c4_counterexample :
    ¬(((tryMatch ("src=\"//cdn/app.js\"").data).isSome = true) ↔
      specIsAbsoluteURL "//cdn/app.js" = false) := by
  decide

/-- Witness for `c4_amended`: a relative `./app.css` reference with no
matching file passes through with its original value. -/
theorem c4_witness :
    tryMatch (("src" ++ "=").data ++ quoteD :: ("./app.css".data ++ quoteD :: [])) =
      some ("src", "./app.css", []) ∧
    rewriteValue c4Project "src" "./app.css" 3 = ("src" ++ "=\"" ++ "./app.css" ++ "\"", 3) := by
  have h := (c4_amended "src" "./app.css" [] (Or.inr rfl) (by decide) (by decide)).1 (by decide)
  exact ⟨h.1, h.2 c4Project 3 (by decide)⟩

/-! ## Claim C6 — canonical paths -/

/-- No two adjacent `'/'` characters (so `replace('//','/')` is a no-op). -/
def noDouble : List Char → Bool
  | [] => true
  | [_] => true
  | a :: b :: r => if a = '/' ∧ b = '/' then false else noDouble (b :: r)

theorem noDouble_cons_of (x : Char) (rest : List Char) (h : noDouble rest = true)
    (hx : ∀ y, rest.head? = some y → ¬(x = '/' ∧ y = '/')) :
    noDouble (x :: rest) = true := by
  cases rest with
  | nil => rfl
  | cons y ys =>
    have hy := hx y rfl
    simp only [noDouble, if_neg hy]
    exact h

theorem noDouble_slashfree_append (xs : List Char) (path : List Char)
    (hx : ∀ c ∈ xs, c ≠ '/') (hp : noDouble path = true) :
    noDouble (xs ++ path) = true := by
  induction xs with
  | nil => simpa using hp
  | cons x xt ih =>
    have hx0 : x ≠ '/' := hx x (by simp)
    have iht := ih (fun c hc => hx c (by simp [hc]))
    rw [List.cons_append]
    apply noDouble_cons_of x _ iht
    intro y _ hcon
    exact hx0 hcon.1

theorem noDouble_seg (name path : List Char) (h1 : name ≠ [])
    (h2 : ∀ c ∈ name, c ≠ '/') (h3 : noDouble path = true) :
    noDouble ('/' :: name ++ path) = true := by
  have hinner : noDouble (name ++ path) = true := noDouble_slashfree_append name path h2 h3
  apply noDouble_cons_of '/' _ hinner
  intro y hy hcon
  cases name with
  | nil => exact h1 rfl
  | cons n1 nr =>
    simp at hy
    exact h2 n1 (by simp) (hy ▸ hcon.2)

theorem firstSplit_dslash_none : ∀ cs, noDouble cs = true → firstSplit ['/', '/'] cs = none := by
  intro cs
  induction cs with
  | nil => intro _; rfl
  | cons c rest ih =>
    intro h
    have hnd : noDouble rest = true := by
      cases rest with
      | nil => rfl
      | cons d r =>
        by_cases hcd : c = '/' ∧ d = '/'
        · simp [noDouble, hcd] at h
        · simpa [noDouble, if_neg hcd] using h
    have hls : lStarts ['/', '/'] (c :: rest) = false := by
      cases rest with
      | nil => simp [lStarts]
      | cons d r =>
        have hcd : ¬(c = '/' ∧ d = '/') := by
          intro hcon
          simp [noDouble, hcon] at h
        by_cases hc : c = '/'
        · have hd : d ≠ '/' := fun hd => hcd ⟨hc, hd⟩
          simp [lStarts, hc, hd, Ne.symm hd]
        · simp [lStarts, Ne.symm hc]
    simp only [firstSplit, hls, Bool.false_eq_true, if_false]
    rw [ih hnd]
    rfl

theorem pathGo_succ_root (nodes : NodeMap) (fuel : Nat) (node : Node) (path : List Char)
    (h : node.parentId = none) :
    pathGo nodes (fuel + 1) node path = '/' :: node.name.data ++ path := by
  simp [pathGo, h]

theorem pathGo_succ_dangling (nodes : NodeMap) (fuel : Nat) (node : Node) (path : List Char)
    (pid : String) (h : node.parentId = some pid) (h2 : nmLookup nodes pid = none) :
    pathGo nodes (fuel + 1) node path = '/' :: node.name.data ++ path := by
  simp [pathGo, h, h2]

theorem pathGo_succ_step (nodes : NodeMap) (fuel : Nat) (node : Node) (path : List Char)
    (pid : String) (pnode : Node) (h : node.parentId = some pid)
    (h2 : nmLookup nodes pid = some pnode) :
    pathGo nodes (fuel + 1) node path = pathGo nodes fuel pnode ('/' :: node.name.data ++ path) := by
  simp [pathGo, h, h2]

theorem pathGo_ne_nil (nodes : NodeMap) :
    ∀ fuel node path, pathGo nodes fuel node path ≠ [] := by
  intro fuel
  induction fuel with
  | zero => intro node path; simp [pathGo]
  | succ fuel ih =>
    intro node path
    cases hpid : node.parentId with
    | none => simp [pathGo_succ_root nodes fuel node path hpid]
    | some pid =>
      cases hpn : nmLookup nodes pid with
      | none => simp [pathGo_succ_dangling nodes fuel node path pid hpid hpn]
      | some pnode =>
        rw [pathGo_succ_step nodes fuel node path pid pnode hpid hpn]
        exact ih pnode _

theorem pathGo_acc (nodes : NodeMap) :
    ∀ fuel node path, pathGo nodes fuel node path = pathGo nodes fuel node [] ++ path := by
  intro fuel
  induction fuel with
  | zero => intro node path; simp [pathGo]
  | succ fuel ih =>
    intro node path
    cases hpid : node.parentId with
    | none =>
      rw [pathGo_succ_root nodes fuel node path hpid, pathGo_succ_root nodes fuel node [] hpid]
      simp
    | some pid =>
      cases hpn : nmLookup nodes pid with
      | none =>
        rw [pathGo_succ_dangling nodes fuel node path pid hpid hpn,
          pathGo_succ_dangling nodes fuel node [] pid hpid hpn]
        simp
      | some pnode =>
        rw [pathGo_succ_step nodes fuel node path pid pnode hpid hpn,
          pathGo_succ_step nodes fuel node [] pid pnode hpid hpn,
          ih pnode ('/' :: node.name.data ++ path), ih pnode ('/' :: node.name.data ++ [])]
        simp

theorem pathGo_stable (nodes : NodeMap) (rank : String → Nat)
    (hrank : ∀ kv ∈ nodes, ∀ q ∈ kv.2.parentId.toList, rank q < rank kv.1) :
    ∀ n k node, nmLookup nodes k = some node → rank k < n →
      ∀ f g path, rank k < f → rank k < g →
        pathGo nodes f node path = pathGo nodes g node path := by
  intro n
  induction n with
  | zero => intro k node _ h; exact absurd h (Nat.not_lt_zero _)
  | succ n ih =>
    intro k node hk hkn f g path hf hg
    obtain ⟨f', rfl⟩ : ∃ f', f = f' + 1 := ⟨f - 1, by omega⟩
    obtain ⟨g', rfl⟩ : ∃ g', g = g' + 1 := ⟨g - 1, by omega⟩
    cases hpid : node.parentId with
    | none =>
      rw [pathGo_succ_root nodes f' node path hpid, pathGo_succ_root nodes g' node path hpid]
    | some pid =>
      cases hpn : nmLookup nodes pid with
      | none =>
        rw [pathGo_succ_dangling nodes f' node path pid hpid hpn,
          pathGo_succ_dangling nodes g' node path pid hpid hpn]
      | some pnode =>
        rw [pathGo_succ_step nodes f' node path pid pnode hpid hpn,
          pathGo_succ_step nodes g' node path pid pnode hpid hpn]
        have hmem : pid ∈ node.parentId.toList := by simp [hpid]
        have hlt : rank pid < rank k := hrank (k, node) (nmLookup_mem hk) pid hmem
        exact ih pid pnode hpn (by omega) f' g' _ (by omega) (by omega)

theorem pathGo_noDouble (nodes : NodeMap)
    (hnames : ∀ kv ∈ nodes, kv.2.name.data ≠ [] ∧ ∀ c ∈ kv.2.name.data, c ≠ '/') :
    ∀ fuel node path, node.name.data ≠ [] → (∀ c ∈ node.name.data, c ≠ '/') →
      noDouble path = true → noDouble (pathGo nodes fuel node path) = true := by
  intro fuel
  induction fuel with
  | zero =>
    intro node path h1 h2 h3
    simpa [pathGo] using noDouble_seg node.name.data path h1 h2 h3
  | succ fuel ih =>
    intro node path h1 h2 h3
    have hseg : noDouble ('/' :: node.name.data ++ path) = true :=
      noDouble_seg node.name.data path h1 h2 h3
    cases hpid : node.parentId with
    | none => rw [pathGo_succ_root nodes fuel node path hpid]; exact hseg
    | some pid =>
      cases hpn : nmLookup nodes pid with
      | none => rw [pathGo_succ_dangling nodes fuel node path pid hpid hpn]; exact hseg
      | some pnode =>
        rw [pathGo_succ_step nodes fuel node path pid pnode hpid hpn]
        have hp := hnames (pid, pnode) (nmLookup_mem hpn)
        exact ih pnode _ hp.1 hp.2 hseg

theorem findNodePath_eq (p : Project) (nodeId : String) (node : Node)
    (hl : nmLookup p.nodes nodeId = some node)
    (hnd : noDouble (pathGo p.nodes (p.nodes.length + 1) node []) = true) :
    findNodePath p nodeId = String.mk (pathGo p.nodes (p.nodes.length + 1) node []) := by
  have hsplit := firstSplit_dslash_none _ hnd
  have hne := pathGo_ne_nil p.nodes (p.nodes.length + 1) node []
  have e1 : sReplaceFirst (String.mk (pathGo p.nodes (p.nodes.length + 1) node [])) "//" "/"
      = String.mk (pathGo p.nodes (p.nodes.length + 1) node []) := by
    simp only [sReplaceFirst, replaceFirstL]
    rw [hsplit]
  have hne' : String.mk (pathGo p.nodes (p.nodes.length + 1) node []) ≠ "" := by
    intro hc
    rw [show ("" : String) = String.mk ([] : List Char) from rfl] at hc
    exact hne (by injection hc)
  simp only [findNodePath, hl, e1, if_neg hne']

theorem mk_append_slash (B : List Char) (nm : String) :
    String.mk (B ++ '/' :: nm.data) = String.mk B ++ "/" ++ nm := by
  cases nm with
  | mk d =>
    show String.mk (B ++ '/' :: d) = String.mk ((B ++ ['/']) ++ d)
    rw [List.append_assoc]
    rfl

/-- C6 (amended): in a valid project — nonempty, slash-free names and
acyclic parent links that resolve — the canonical path of the root is
`"/" ++ rootName` (the root's own name is included; it is not `"/"`), and
for every node with a resolvable parent, the parent's canonical path plus
`"/"` plus the node's name equals the node's canonical path. -/
theorem c6_amended (p : Project) (rank : String → Nat)
    (hrank : ∀ kv ∈ p.nodes, ∀ q ∈ kv.2.parentId.toList, rank q < rank kv.1)
    (hbound : ∀ kv ∈ p.nodes, rank kv.1 < p.nodes.length)
    (hnames : ∀ kv ∈ p.nodes, kv.2.name.data ≠ [] ∧ ∀ c ∈ kv.2.name.data, c ≠ '/') :
    (∀ root, nmLookup p.nodes p.rootId = some root → root.parentId = none →
      findNodePath p p.rootId = "/" ++ root.name) ∧
    (∀ nodeId node pid pnode, nmLookup p.nodes nodeId = some node →
      node.parentId = some pid → nmLookup p.nodes pid = some pnode →
      findNodePath p nodeId = findNodePath p pid ++ "/" ++ node.name) := by
  constructor
  · intro root hr hpar
    have hprops := hnames (p.rootId, root) (nmLookup_mem hr)
    have hgo : pathGo p.nodes (p.nodes.length + 1) root [] = '/' :: root.name.data ++ [] := by
      simp [pathGo, hpar]
    have hnd : noDouble (pathGo p.nodes (p.nodes.length + 1) root []) = true := by
      rw [hgo]
      exact noDouble_seg root.name.data [] hprops.1 hprops.2 rfl
    rw [findNodePath_eq p p.rootId root hr hnd, hgo]
    show String.mk ('/' :: root.name.data ++ []) = String.mk (['/'] ++ root.name.data)
    simp
  · intro nodeId node pid pnode hn hpid hpn
    have hnp := hnames (nodeId, node) (nmLookup_mem hn)
    have hpp := hnames (pid, pnode) (nmLookup_mem hpn)
    have hrankpid : rank pid < p.nodes.length := hbound (pid, pnode) (nmLookup_mem hpn)
    have hstep : pathGo p.nodes (p.nodes.length + 1) node []
        = pathGo p.nodes p.nodes.length pnode ('/' :: node.name.data ++ []) := by
      simp [pathGo, hpid, hpn]
    have hstable : pathGo p.nodes p.nodes.length pnode ('/' :: node.name.data ++ [])
        = pathGo p.nodes (p.nodes.length + 1) pnode ('/' :: node.name.data ++ []) :=
      pathGo_stable p.nodes rank hrank (rank pid + 1) pid pnode hpn (Nat.lt_succ_self _)
        p.nodes.length (p.nodes.length + 1) _ hrankpid (by omega)
    have hacc : pathGo p.nodes (p.nodes.length + 1) pnode ('/' :: node.name.data ++ [])
        = pathGo p.nodes (p.nodes.length + 1) pnode [] ++ ('/' :: node.name.data ++ []) :=
      pathGo_acc p.nodes (p.nodes.length + 1) pnode _
    have hndnode : noDouble (pathGo p.nodes (p.nodes.length + 1) node []) = true :=
      pathGo_noDouble p.nodes hnames (p.nodes.length + 1) node [] hnp.1 hnp.2 rfl
    have hndp : noDouble (pathGo p.nodes (p.nodes.length + 1) pnode []) = true :=
      pathGo_noDouble p.nodes hnames (p.nodes.length + 1) pnode [] hpp.1 hpp.2 rfl
    rw [findNodePath_eq p nodeId node hn hndnode, findNodePath_eq p pid pnode hpn hndp]
    rw [hstep, hstable, hacc]
    rw [show ('/' :: node.name.data ++ ([] : List Char)) = '/' :: node.name.data by simp]
    exact mk_append_slash _ node.name

/-- A project whose root folder is named `r`. -/
def c6Project : Project :=
  { id := "p6", name := "proj", rootId := "root",
    nodes := [("root",
      { id := "root", name := "r", parentId := none, data := .folder [],
        createdAt := "t0", updatedAt := "t0" })],
    createdAt := "t0", updatedAt := "t0" }

/-- C6 is false as stated: the canonical path of the root is `"/r"` —
`findNodePath` includes the root's own name — and not `"/"`. -/
theorem c6_counterexample :
    findNodePath c6Project c6Project.rootId = "/r" ∧ ("/r" : String) ≠ "/" := by
  decide

/-- A two-node valid project for the witness. -/
def c6WProject : Project :=
  { id := "p6w", name := "proj", rootId := "root",
    nodes :=
      [("root", { id := "root", name := "w", parentId := none,
                  data := .folder ["a"], createdAt := "t0", updatedAt := "t0" }),
       ("a", { id := "a", name := "x.txt", parentId := some "root",
               data := .file "", createdAt := "t0", updatedAt := "t0" })],
    createdAt := "t0", updatedAt := "t0" }

/-- Depth function witnessing acyclicity of `c6WProject`. -/
def c6WRank : String → Nat := fun k => if k = "a" then 1 else 0

/-- Witness for `c6_amended`: the child's canonical path is the root's
canonical path plus `/` plus its name. -/
theorem c6_witness :
    findNodePath c6WProject "a" = findNodePath c6WProject "root" ++ "/" ++ "x.txt" :=
  (c6_amended c6WProject c6WRank (by decide) (by decide) (by decide)).2 "a"
    (Node.mk "a" "x.txt" (some "root") (.file "") "t0" "t0") "root"
    (Node.mk "root" "w" none (.folder ["a"]) "t0" "t0") rfl rfl rfl

/-! ## Claim C2 — deleteNode removes exactly the spanned subtree -/

theorem childrenIds_of_not_folder (v : Node) (h : v.isFolder = false) :
    v.childrenIds = [] := by
  cases hd : v.data <;> simp [Node.isFolder, Node.childrenIds, hd] at h ⊢

theorem weightSum_erase_le (m : NodeMap) (k : String) :
    weightSum (nmErase m k) ≤ weightSum m := by
  induction m with
  | nil => simp [nmErase]
  | cons hd t ih =>
    obtain ⟨a, b⟩ := hd
    by_cases h : a = k
    · simp only [nmErase, if_pos h]
      calc weightSum (nmErase t k) ≤ weightSum t := ih
        _ ≤ weightSum ((a, b) :: t) := by
          simp only [weightSum, List.map_cons, List.sum_cons]
          omega
    · simp only [nmErase, if_neg h, weightSum, List.map_cons, List.sum_cons]
      have := ih
      simp only [weightSum] at this
      omega

theorem weightSum_erase_lookup {m : NodeMap} {k : String} {v : Node}
    (h : nmLookup m k = some v) :
    weightSum (nmErase m k) + (1 + v.childrenIds.length) ≤ weightSum m := by
  induction m with
  | nil => simp [nmLookup] at h
  | cons hd t ih =>
    obtain ⟨a, b⟩ := hd
    by_cases hak : a = k
    · simp only [nmLookup, if_pos hak] at h
      obtain rfl : b = v := by injection h
      simp only [nmErase, if_pos hak]
      have h1 := weightSum_erase_le t k
      simp only [weightSum, List.map_cons, List.sum_cons]
      simp only [weightSum] at h1
      omega
    · simp only [nmLookup, if_neg hak] at h
      simp only [nmErase, if_neg hak]
      have := ih h
      simp only [weightSum, List.map_cons, List.sum_cons] at *
      omega

theorem delChildren_le {m : NodeMap} {k : String} {v : Node}
    (h : nmLookup m k = some v) :
    (delChildren m k).length ≤ v.childrenIds.length := by
  simp only [delChildren, h]
  cases hf : v.isFolder <;> simp

theorem delStep_measure (m : NodeMap) (cur : String) (rest : List String) :
    weightSum (nmErase m cur) + (rest ++ delChildren m cur).length + 1 ≤
      weightSum m + (cur :: rest).length := by
  cases h : nmLookup m cur with
  | none =>
    rw [nmErase_of_lookup_none h]
    simp only [delChildren, h, List.append_nil, List.length_cons]
    omega
  | some v =>
    have h1 := weightSum_erase_lookup h
    have h2 := delChildren_le h
    simp only [List.length_append, List.length_cons]
    omega

/-- Invariant of the deleting traversal, relative to the original map
`orig` and the deletion origin `src`: every queued id lies in the spanned
subtree; the shrinking map agrees with `orig` except on deleted subtree
ids; the original children of any deleted id are deleted or queued; and
`src` itself is deleted or queued. -/
structure DelInv (orig : NodeMap) (src : String) (q : List String) (m : NodeMap) : Prop where
  hq : ∀ k ∈ q, Reach orig src k
  hm : ∀ k, nmLookup m k = nmLookup orig k ∨ (nmLookup m k = none ∧ Reach orig src k)
  hc : ∀ k v, nmLookup orig k = some v → nmLookup m k = none →
        ∀ c ∈ v.childrenIds, nmLookup m c = none ∨ c ∈ q
  hs : nmLookup m src = none ∨ src ∈ q

theorem DelInv.step {orig : NodeMap} {src cur : String} {rest : List String}
    {m : NodeMap} (inv : DelInv orig src (cur :: rest) m) :
    DelInv orig src (rest ++ delChildren m cur) (nmErase m cur) := by
  obtain ⟨hq, hm, hc, hs⟩ := inv
  have hcur : Reach orig src cur := hq cur (by simp)
  have hchild : ∀ c ∈ delChildren m cur,
      ∃ v, nmLookup orig cur = some v ∧ c ∈ v.childrenIds := by
    intro c hcm
    simp only [delChildren] at hcm
    cases hx : nmLookup m cur with
    | none => simp [hx] at hcm
    | some v =>
      simp only [hx] at hcm
      rcases hm cur with heq | ⟨hnone, _⟩
      · refine ⟨v, by rw [← heq, hx], ?_⟩
        cases hf : v.isFolder
        · simp [hf] at hcm
        · simp only [hf, if_true] at hcm
          exact hcm
      · rw [hnone] at hx
        cases hx
  refine ⟨?_, ?_, ?_, ?_⟩
  · intro k hk
    rcases List.mem_append.mp hk with hk | hk
    · exact hq k (by simp [hk])
    · obtain ⟨v, hov, hcv⟩ := hchild k hk
      exact Relation.ReflTransGen.tail hcur ⟨v, hov, hcv⟩
  · intro k
    by_cases hkc : k = cur
    · subst hkc
      exact Or.inr ⟨nmLookup_erase_self m k, hcur⟩
    · rw [nmLookup_erase_other m cur k hkc]
      exact hm k
  · intro k v hok hmk c hcv
    by_cases hkc : k = cur
    · subst hkc
      cases hx : nmLookup m k with
      | some w =>
        rcases hm k with heq | ⟨hnone, _⟩
        · rw [hx, hok] at heq
          obtain rfl : w = v := by injection heq
          right
          apply List.mem_append.mpr
          right
          simp only [delChildren, hx]
          cases hf : w.isFolder
          · exact absurd hcv (by simp [childrenIds_of_not_folder w hf])
          · simp only [hf, if_true]
            exact hcv
        · rw [hnone] at hx
          cases hx
      | none =>
        rcases hc k v hok hx c hcv with hcnone | hcq
        · left
          by_cases hcc : c = k
          · subst hcc
            exact nmLookup_erase_self m c
          · rw [nmLookup_erase_other m k c hcc]
            exact hcnone
        · rcases List.mem_cons.mp hcq with rfl | hcr
          · left
            exact nmLookup_erase_self m c
          · right
            exact List.mem_append.mpr (Or.inl hcr)
    · rw [nmLookup_erase_other m cur k hkc] at hmk
      rcases hc k v hok hmk c hcv with hcnone | hcq
      · by_cases hcc : c = cur
        · subst hcc
          left
          exact nmLookup_erase_self m c
        · left
          rw [nmLookup_erase_other m cur c hcc]
          exact hcnone
      · rcases List.mem_cons.mp hcq with rfl | hcr
        · left
          exact nmLookup_erase_self m c
        · right
          exact List.mem_append.mpr (Or.inl hcr)
  · rcases hs with hnone | hsq
    · by_cases hsc : src = cur
      · left
        rw [hsc]
        exact nmLookup_erase_self m cur
      · left
        rw [nmLookup_erase_other m cur src hsc]
        exact hnone
    · rcases List.mem_cons.mp hsq with heq | hsr
      · left
        rw [heq]
        exact nmLookup_erase_self m cur
      · right
        exact List.mem_append.mpr (Or.inl hsr)

theorem delLoop_run (orig : NodeMap) (src : String) :
    ∀ fuel q m, DelInv orig src q m → weightSum m + q.length ≤ fuel →
      DelInv orig src [] (delLoop fuel q m).1 := by
  intro fuel
  induction fuel with
  | zero =>
    intro q m inv hle
    cases q with
    | nil => exact inv
    | cons a tq => simp only [List.length_cons] at hle; omega
  | succ fuel ih =>
    intro q m inv hle
    cases q with
    | nil => exact inv
    | cons cur rest =>
      have hstep := delStep_measure m cur rest
      exact ih _ _ inv.step
        (by simp only [List.length_cons] at hle hstep; omega)

theorem delInv_final_reach {orig : NodeMap} {src : String} {m : NodeMap}
    (inv : DelInv orig src [] m) : ∀ k, Reach orig src k → nmLookup m k = none := by
  intro k hk
  induction hk with
  | refl =>
    rcases inv.hs with h | h
    · exact h
    · simp at h
  | tail _ hbc ih =>
    obtain ⟨v, hov, hcv⟩ := hbc
    rcases inv.hc _ v hov ih _ hcv with h | h
    · exact h
    · simp at h

theorem delInv_final_keep {orig : NodeMap} {src : String} {m : NodeMap}
    (inv : DelInv orig src [] m) :
    ∀ k, ¬Reach orig src k → nmLookup m k = nmLookup orig k := by
  intro k hk
  rcases inv.hm k with h | ⟨_, hr⟩
  · exact h
  · exact absurd hr hk

theorem delFixup_none (m : NodeMap) (nodeId t : String) :
    delFixup none m nodeId t = m := rfl

theorem delFixup_empty (m : NodeMap) (nodeId t : String) :
    delFixup (some "") m nodeId t = m := rfl

theorem delFixup_missing (m : NodeMap) (nodeId t pid : String) (hpe : pid ≠ "")
    (h : nmLookup m pid = none) : delFixup (some pid) m nodeId t = m := by
  simp [delFixup, hpe, h]

theorem delFixup_file (m : NodeMap) (nodeId t pid : String) (pv : Node) (hpe : pid ≠ "")
    (h : nmLookup m pid = some pv) (hf : pv.isFolder = false) :
    delFixup (some pid) m nodeId t = m := by
  simp [delFixup, hpe, h, hf]

theorem delFixup_folder (m : NodeMap) (nodeId t pid : String) (pv : Node) (hpe : pid ≠ "")
    (h : nmLookup m pid = some pv) (hf : pv.isFolder = true) :
    delFixup (some pid) m nodeId t =
      nmSet m pid (Node.mk pv.id pv.name pv.parentId
        (.folder (pv.childrenIds.filter (fun cid => cid != nodeId))) pv.createdAt t) := by
  simp [delFixup, hpe, h, hf]

/-- C2 (amended): deleting the root id leaves the project unchanged;
deleting any other id removes from the mapping exactly the ids reachable
from it through `childrenIds` (every reachable id disappears, every other
id keeps its binding), and — provided the deleted node's recorded parent
id is a nonempty string — the surviving former parent no longer lists the
deleted id among its `childrenIds`.  (For an empty-string parent id the
JS truthiness test skips the fixup; see the counterexample.) -/
theorem c2_amended (p : Project) (nodeId t : String) :
    (nodeId = p.rootId → handleDeleteNode p nodeId t = p) ∧
    (nodeId ≠ p.rootId →
      (∀ k, Reach p.nodes nodeId k →
        nmLookup (handleDeleteNode p nodeId t).nodes k = none) ∧
      (∀ k, ¬Reach p.nodes nodeId k →
        (nmLookup (handleDeleteNode p nodeId t).nodes k).isSome =
          (nmLookup p.nodes k).isSome) ∧
      (∀ node pid, nmLookup p.nodes nodeId = some node → node.parentId = some pid →
        pid ≠ "" → ∀ pv, nmLookup (handleDeleteNode p nodeId t).nodes pid = some pv →
          nodeId ∉ pv.childrenIds)) := by
  constructor
  · intro h
    simp [handleDeleteNode, h]
  · intro hne
    have hinv0 : DelInv p.nodes nodeId [nodeId] p.nodes := by
      refine ⟨?_, ?_, ?_, ?_⟩
      · intro k hk
        simp at hk
        subst hk
        exact Relation.ReflTransGen.refl
      · intro k
        exact Or.inl rfl
      · intro k v hok hmk c _
        rw [hok] at hmk
        cases hmk
      · exact Or.inr (by simp)
    have hrun := delLoop_run p.nodes nodeId (weightSum p.nodes + 2) [nodeId] p.nodes hinv0
      (by simp only [List.length_cons, List.length_nil]; omega)
    have hA := delInv_final_reach hrun
    have hB := delInv_final_keep hrun
    have hnodes : (handleDeleteNode p nodeId t).nodes =
        delFixup ((nmLookup p.nodes nodeId).bind (fun n => n.parentId))
          ((delLoop (weightSum p.nodes + 2) [nodeId] p.nodes).1) nodeId t := by
      simp only [handleDeleteNode, if_neg hne]
    refine ⟨?_, ?_, ?_⟩
    · intro k hk
      rw [hnodes]
      have hMk := hA k hk
      rcases hpo : (nmLookup p.nodes nodeId).bind (fun n => n.parentId) with _ | pid
      · rw [delFixup_none]
        exact hMk
      · by_cases hpe : pid = ""
        · subst hpe
          rw [delFixup_empty]
          exact hMk
        · cases hpl : nmLookup ((delLoop (weightSum p.nodes + 2) [nodeId] p.nodes).1) pid with
          | none =>
            rw [delFixup_missing _ _ _ _ hpe hpl]
            exact hMk
          | some pv =>
            cases hpf : pv.isFolder
            · rw [delFixup_file _ _ _ _ pv hpe hpl hpf]
              exact hMk
            · rw [delFixup_folder _ _ _ _ pv hpe hpl hpf]
              by_cases hkp : k = pid
              · subst hkp
                rw [hpl] at hMk
                cases hMk
              · rw [nmLookup_set_other _ pid k _ hkp]
                exact hMk
    · intro k hk
      rw [hnodes]
      have hMk := hB k hk
      rcases hpo : (nmLookup p.nodes nodeId).bind (fun n => n.parentId) with _ | pid
      · rw [delFixup_none, hMk]
      · by_cases hpe : pid = ""
        · subst hpe
          rw [delFixup_empty, hMk]
        · cases hpl : nmLookup ((delLoop (weightSum p.nodes + 2) [nodeId] p.nodes).1) pid with
          | none =>
            rw [delFixup_missing _ _ _ _ hpe hpl, hMk]
          | some pv =>
            cases hpf : pv.isFolder
            · rw [delFixup_file _ _ _ _ pv hpe hpl hpf, hMk]
            · rw [delFixup_folder _ _ _ _ pv hpe hpl hpf]
              by_cases hkp : k = pid
              · subst hkp
                rw [nmLookup_set_self]
                rw [hMk] at hpl
                rw [hpl]
                rfl
              · rw [nmLookup_set_other _ pid k _ hkp, hMk]
    · intro node pid hlook hpid hpe pv0 hres
      rw [hnodes] at hres
      have hpo : (nmLookup p.nodes nodeId).bind (fun n => n.parentId) = some pid := by
        rw [hlook]
        simpa using hpid
      rw [hpo] at hres
      cases hpl : nmLookup ((delLoop (weightSum p.nodes + 2) [nodeId] p.nodes).1) pid with
      | none =>
        rw [delFixup_missing _ _ _ _ hpe hpl, hpl] at hres
        cases hres
      | some pv =>
        cases hpf : pv.isFolder
        · rw [delFixup_file _ _ _ _ pv hpe hpl hpf, hpl] at hres
          obtain rfl : pv = pv0 := by injection hres
          simp [childrenIds_of_not_folder pv hpf]
        · rw [delFixup_folder _ _ _ _ pv hpe hpl hpf, nmLookup_set_self] at hres
          obtain rfl : Node.mk pv.id pv.name pv.parentId
              (.folder (pv.childrenIds.filter (fun cid => cid != nodeId)))
              pv.createdAt t = pv0 := by injection hres
          intro hmem
          simp only [Node.childrenIds] at hmem
          have h2 := List.mem_filter.mp hmem
          simp at h2

/-- A fully tree-shaped project in which the folder with id `""` owns the
file `a` (so `a.parentId` is the empty string — a legal, if unusual,
id). -/
def c2Project : Project :=
  { id := "p2", name := "proj", rootId := "r",
    nodes :=
      [("r", { id := "r", name := "proj", parentId := none,
               data := .folder [""], createdAt := "t0", updatedAt := "t0" }),
       ("", { id := "", name := "assets", parentId := some "r",
              data := .folder ["a"], createdAt := "t0", updatedAt := "t0" }),
       ("a", { id := "a", name := "x.txt", parentId := some "",
               data := .file "", createdAt := "t0", updatedAt := "t0" })],
    createdAt := "t0", updatedAt := "t0" }

/-- C2 is false as stated: deleting `a` removes it from the mapping, but
because its recorded parent id is the empty string the JS truthiness
test skips the parent fixup, so the former parent's `childrenIds` still
contains the deleted id. -/
theorem c2_counterexample :
    (nmLookup c2Project.nodes "a").bind Node.parentId = some "" ∧
    nmLookup (handleDeleteNode c2Project "a" "t2").nodes "a" = none ∧
    (nmLookup (handleDeleteNode c2Project "a" "t2").nodes "").map Node.childrenIds =
      some ["a"] := by
  decide

/-- A three-level project for the witness: root → folder `f` → file `a`. -/
def c2WProject : Project :=
  { id := "p2w", name := "proj", rootId := "root",
    nodes :=
      [("root", { id := "root", name := "proj", parentId := none,
                  data := .folder ["f"], createdAt := "t0", updatedAt := "t0" }),
       ("f", { id := "f", name := "folder", parentId := some "root",
               data := .folder ["a"], createdAt := "t0", updatedAt := "t0" }),
       ("a", { id := "a", name := "x.txt", parentId := some "f",
               data := .file "", createdAt := "t0", updatedAt := "t0" })],
    createdAt := "t0", updatedAt := "t0" }

/-- Witness for `c2_amended`: deleting the folder also removes the file
inside it. -/
theorem c2_witness :
    nmLookup (handleDeleteNode c2WProject "f" "t9").nodes "a" = none := by
  have h := (c2_amended c2WProject "f" "t9").2 (by decide)
  apply h.1 "a"
  exact Relation.ReflTransGen.single
    ⟨Node.mk "f" "folder" (some "root") (.folder ["a"]) "t0" "t0", by decide, by decide⟩

/-! ## Claim C10 — termination of the unguarded subtree-collection BFS -/

theorem collect_children_measure (nodes : NodeMap) (rank : String → Nat) (B : Nat)
    (hrank : ∀ kv ∈ nodes, ∀ c ∈ kv.2.childrenIds, rank c < rank kv.1)
    (hB : ∀ kv ∈ nodes, kv.2.childrenIds.length ≤ B) (cur : String) :
    ((delChildren nodes cur).map (fun k => (B + 1) ^ rank k)).sum + 1 ≤
      (B + 1) ^ rank cur := by
  have hone : ∀ r : Nat, 1 ≤ (B + 1) ^ r := fun r => Nat.one_le_pow r (B + 1) (by omega)
  cases h : nmLookup nodes cur with
  | none =>
    simp only [delChildren, h, List.map_nil, List.sum_nil, Nat.zero_add]
    exact hone _
  | some v =>
    have hmem := nmLookup_mem h
    simp only [delChildren, h]
    cases hf : v.isFolder
    · simp only [Bool.false_eq_true, if_false, List.map_nil, List.sum_nil, Nat.zero_add]
      exact hone _
    · simp only [if_true]
      cases hcs : v.childrenIds with
      | nil => simpa using hone (rank cur)
      | cons c0 cs0 =>
        have hc0 : rank c0 < rank cur := hrank _ hmem c0 (by rw [hcs]; simp)
        have hr1 : 1 ≤ rank cur := by omega
        have hbound : ∀ x ∈ v.childrenIds.map (fun k => (B + 1) ^ rank k),
            x ≤ (B + 1) ^ (rank cur - 1) := by
          intro x hx
          simp only [List.mem_map] at hx
          obtain ⟨c, hc, rfl⟩ := hx
          have h3 : rank c < rank cur := hrank _ hmem c hc
          exact Nat.pow_le_pow_right (by omega) (by omega)
        have hsum := List.sum_le_card_nsmul _ _ hbound
        rw [List.length_map, smul_eq_mul] at hsum
        have hlen : v.childrenIds.length ≤ B := hB _ hmem
        have hmul : v.childrenIds.length * (B + 1) ^ (rank cur - 1) ≤
            B * (B + 1) ^ (rank cur - 1) :=
          Nat.mul_le_mul_right _ hlen
        have hpow : (B + 1) ^ rank cur =
            B * (B + 1) ^ (rank cur - 1) + (B + 1) ^ (rank cur - 1) := by
          conv_lhs => rw [show rank cur = (rank cur - 1) + 1 by omega]
          rw [pow_succ]
          ring
        rw [← hcs, hpow]
        have hge := hone (rank cur - 1)
        omega

theorem collectLoop_isSome (nodes : NodeMap) (rank : String → Nat) (B : Nat)
    (hrank : ∀ kv ∈ nodes, ∀ c ∈ kv.2.childrenIds, rank c < rank kv.1)
    (hB : ∀ kv ∈ nodes, kv.2.childrenIds.length ≤ B) :
    ∀ fuel q acc, (q.map (fun k => (B + 1) ^ rank k)).sum ≤ fuel →
      (collectLoop nodes fuel q acc).isSome = true := by
  intro fuel
  induction fuel with
  | zero =>
    intro q acc hle
    cases q with
    | nil => rfl
    | cons c t =>
      exfalso
      have h1 : 1 ≤ (B + 1) ^ rank c := Nat.one_le_pow _ _ (by omega)
      simp only [List.map_cons, List.sum_cons] at hle
      omega
  | succ fuel ih =>
    intro q acc hle
    cases q with
    | nil => rfl
    | cons cur rest =>
      have hchild := collect_children_measure nodes rank B hrank hB cur
      show (collectLoop nodes fuel (rest ++ delChildren nodes cur)
        (if cur ∈ acc then acc else acc ++ [cur])).isSome = true
      apply ih
      simp only [List.map_append, List.sum_append]
      simp only [List.map_cons, List.sum_cons] at hle
      omega

/-- C10: on every node mapping whose `childrenIds` graph is acyclic — as
witnessed by a rank function strictly decreasing from parents to children
— with branching bounded by `B`, the subtree-collection BFS of
`handleDeleteNode` (which has no visited-set guard: `deletedIds` is
written but never consulted) terminates: some fuel suffices for the loop
to drain its queue, so deletion is total on tree-shaped projects. -/
theorem c10_collect_terminates (nodes : NodeMap) (startId : String)
    (rank : String → Nat) (B : Nat)
    (hrank : ∀ kv ∈ nodes, ∀ c ∈ kv.2.childrenIds, rank c < rank kv.1)
    (hB : ∀ kv ∈ nodes, kv.2.childrenIds.length ≤ B) :
    ∃ fuel, (collectLoop nodes fuel [startId] []).isSome = true := by
  refine ⟨(B + 1) ^ rank startId, ?_⟩
  apply collectLoop_isSome nodes rank B hrank hB
  simp

/-- A cyclic mapping on which the same loop never drains its queue: the
precondition of `c10_collect_terminates` is not idle decoration. -/
def c10Cycle : NodeMap :=
  [("a", { id := "a", name := "a", parentId := some "a", data := .folder ["a"],
           createdAt := "t0", updatedAt := "t0" })]

theorem collectLoop_cycle_aux :
    ∀ fuel acc, "a" ∈ acc → collectLoop c10Cycle fuel ["a"] acc = none := by
  intro fuel
  induction fuel with
  | zero => intro acc _; rfl
  | succ fuel ih =>
    intro acc hmem
    show collectLoop c10Cycle fuel ([] ++ delChildren c10Cycle "a")
      (if "a" ∈ acc then acc else acc ++ ["a"]) = none
    rw [if_pos hmem]
    exact ih acc hmem

theorem collectLoop_cycle_diverges :
    ∀ fuel, collectLoop c10Cycle fuel ["a"] [] = none := by
  intro fuel
  cases fuel with
  | zero => rfl
  | succ fuel =>
    show collectLoop c10Cycle fuel ([] ++ delChildren c10Cycle "a")
      (if "a" ∈ ([] : List String) then [] else [] ++ ["a"]) = none
    rw [if_neg (by simp)]
    exact collectLoop_cycle_aux fuel ["a"] (by simp)

/-- A small tree mapping for the witness. -/
def c10Nodes : NodeMap :=
  [("root", { id := "root", name := "proj", parentId := none, data := .folder ["a", "b"],
              createdAt := "t0", updatedAt := "t0" }),
   ("a", { id := "a", name := "a.txt", parentId := some "root", data := .file "",
           createdAt := "t0", updatedAt := "t0" }),
   ("b", { id := "b", name := "sub", parentId := some "root", data := .folder [],
           createdAt := "t0", updatedAt := "t0" })]

/-- Depth function witnessing acyclicity of `c10Nodes`. -/
def c10Rank : String → Nat := fun k => if k = "root" then 1 else 0

/-- Witness for `c10_collect_terminates` on a concrete tree. -/
theorem c10_witness : ∃ fuel, (collectLoop c10Nodes fuel ["root"] []).isSome = true :=
  c10_collect_terminates c10Nodes "root" c10Rank 2 (by decide) (by decide)

end LocalWebIDE
